import Mathlib

/-!
Shallow embedding of the `env_manager` VS Code extension core
(`src/EnvManager.ts`) and proofs of the specification claims.

The data model mirrors `src/types.ts`; the operations mirror the methods
of `EnvManager`.  Effectful collaborators are made explicit:
the terminal environment-variable collection becomes a finite map
`Collection := String → Option String`, and the filesystem becomes
`Fs := String → Option String` (path to file content).
-/

/-- Mirrors `EnvVariable` from `src/types.ts`. -/
structure EnvVariable where
  key : String
  value : String
  enabled : Bool
deriving DecidableEq, Repr

/-- Mirrors `Environment` from `src/types.ts`; the field `vars` models the
source field `variables` (that spelling is a reserved word in Lean). -/
structure Environment where
  id : String
  name : String
  vars : List EnvVariable
deriving DecidableEq, Repr

/-- Mirrors `Project` from `src/types.ts` (`activeEnvId?: string`). -/
structure Project where
  id : String
  name : String
  path : String
  environments : List Environment
  activeEnvId : Option String
deriving DecidableEq, Repr

/-- Mirrors `SyncMode = 'terminal' | 'file'` from `src/types.ts`. -/
inductive SyncMode where
  | terminal
  | file
deriving DecidableEq, Repr

/-- The VS Code `environmentVariableCollection`, modelled as the map from
variable names to the injected value (if any). -/
def Collection := String → Option String

/-- Models `environmentVariableCollection.clear()` / the state after `clear`. -/
def Collection.empty : Collection := fun _ => none

/-- Models `environmentVariableCollection.replace(key, value)`. -/
def Collection.replace (c : Collection) (k v : String) : Collection :=
  fun q => if q = k then some v else c q

/-- The `forEach` loops of `updateEnvironmentVariables`: inject every
enabled variable of `vars` into the collection, in order. -/
def applyVars (c : Collection) (vars : List EnvVariable) : Collection :=
  vars.foldl (fun c v => if v.enabled then c.replace v.key v.value else c) c

/-- Models `project.environments.find(e => e.id === project.activeEnvId)` guarded by
`project.activeEnvId` being set. -/
def projectActiveEnv (p : Project) : Option Environment :=
  match p.activeEnvId with
  | none => none
  | some envId => p.environments.find? (fun e => e.id == envId)

/-- Model of JavaScript `String.prototype.toLowerCase` (per-character
lowercasing; `Char.toLower` covers the ASCII range used by paths). -/
def toLowerStr (s : String) : String := String.mk (s.data.map Char.toLower)

/-- One iteration of the workspace-folder loop of
`updateEnvironmentVariables`: find the project whose path matches the
folder path case-insensitively and inject its active environment's
enabled variables. -/
def applyFolder (projects : List Project) (c : Collection) (workspacePath : String) :
    Collection :=
  match projects.find? (fun p => toLowerStr p.path == toLowerStr workspacePath) with
  | none => c
  | some p =>
    match projectActiveEnv p with
    | none => c
    | some activeEnv => applyVars c activeEnv.vars

/-- Models `EnvManager.updateEnvironmentVariables` (src/EnvManager.ts:409-454):
clear the collection; in `file` mode stop there; otherwise, if workspace
folders exist, inject each matched project's active enabled variables and
then the enabled workspace overrides on top. -/
def updateEnvironmentVariables (syncMode : SyncMode) (projects : List Project)
    (workspaceFolders : Option (List String)) (workspaceVars : List EnvVariable) :
    Collection :=
  if syncMode = SyncMode.file then Collection.empty
  else
    match workspaceFolders with
    | none => Collection.empty
    | some folders =>
      applyVars (folders.foldl (applyFolder projects) Collection.empty) workspaceVars

theorem applyVars_cons (c : Collection) (v : EnvVariable) (l : List EnvVariable) :
    applyVars c (v :: l) =
      applyVars (if v.enabled then c.replace v.key v.value else c) l := rfl

theorem applyVars_nil (c : Collection) : applyVars c [] = c := rfl

/-- A fold of `replace`s over variables none of which has key `K` leaves the
collection unchanged at `K`. -/
theorem applyVars_apply_of_not_mem_keys (l : List EnvVariable) (c : Collection)
    (K : String) (h : K ∉ l.map (·.key)) : applyVars c l K = c K := by
  induction l generalizing c with
  | nil => rfl
  | cons v t ih =>
    simp only [List.map_cons, List.mem_cons] at h
    push_neg at h
    rw [applyVars_cons, ih _ h.2]
    by_cases hv : v.enabled = true
    · simp [hv, Collection.replace, h.1]
    · simp [hv]

/-- If `⟨K, V, true⟩` occurs in `l` and the keys of `l` are pairwise
distinct, the fold maps `K` to `V`. -/
theorem applyVars_apply_of_mem (l : List EnvVariable) (c : Collection)
    (K V : String) (hmem : (⟨K, V, true⟩ : EnvVariable) ∈ l)
    (hnodup : (l.map (·.key)).Nodup) : applyVars c l K = some V := by
  induction l generalizing c with
  | nil => cases hmem
  | cons v t ih =>
    simp only [List.map_cons, List.nodup_cons] at hnodup
    rcases List.mem_cons.mp hmem with hv | ht
    · subst hv
      rw [applyVars_cons, if_pos rfl,
        applyVars_apply_of_not_mem_keys _ _ _ hnodup.1]
      simp [Collection.replace]
    · rw [applyVars_cons]
      exact ih _ ht hnodup.2

/-- Every binding present after the `applyVars` fold either comes from an
enabled variable of `l` or was already in the collection. -/
theorem applyVars_apply_eq_some (l : List EnvVariable) (c : Collection) (K V : String)
    (h : applyVars c l K = some V) :
    (∃ w ∈ l, w.enabled = true ∧ w.key = K ∧ w.value = V) ∨ c K = some V := by
  induction l generalizing c with
  | nil => exact Or.inr h
  | cons v t ih =>
    rw [applyVars_cons] at h
    rcases ih _ h with hmem | hbase
    · obtain ⟨w, hw, rest⟩ := hmem
      exact Or.inl ⟨w, List.mem_cons_of_mem _ hw, rest⟩
    · by_cases hv : v.enabled = true
      · rw [if_pos hv] at hbase
        simp only [Collection.replace] at hbase
        by_cases hk : K = v.key
        · rw [if_pos hk] at hbase
          exact Or.inl ⟨v, List.mem_cons_self v t, hv, hk.symm, Option.some.inj hbase⟩
        · rw [if_neg hk] at hbase
          exact Or.inr hbase
      · rw [if_neg hv] at hbase
        exact Or.inr hbase

/-- Every binding present after one workspace-folder iteration either comes
from an enabled variable of some project's active environment or was
already in the collection. -/
theorem applyFolder_apply_eq_some (projects : List Project) (c : Collection)
    (wp K V : String) (h : applyFolder projects c wp K = some V) :
    (∃ p ∈ projects, ∃ e, projectActiveEnv p = some e ∧
      ∃ w ∈ e.vars, w.enabled = true ∧ w.key = K ∧ w.value = V) ∨ c K = some V := by
  unfold applyFolder at h
  cases hfind : projects.find? (fun p => toLowerStr p.path == toLowerStr wp) with
  | none => simp only [hfind] at h; exact Or.inr h
  | some p =>
    simp only [hfind] at h
    cases hae : projectActiveEnv p with
    | none => simp only [hae] at h; exact Or.inr h
    | some e =>
      simp only [hae] at h
      rcases applyVars_apply_eq_some _ _ _ _ h with ⟨w, hw, h1, h2, h3⟩ | hb
      · exact Or.inl ⟨p, List.mem_of_find?_eq_some hfind, e, hae, w, hw, h1, h2, h3⟩
      · exact Or.inr hb

/-- Provenance through the whole workspace-folder loop. -/
theorem foldl_applyFolder_apply_eq_some (folders : List String)
    (projects : List Project) (c : Collection) (K V : String)
    (h : (folders.foldl (applyFolder projects) c) K = some V) :
    (∃ p ∈ projects, ∃ e, projectActiveEnv p = some e ∧
      ∃ w ∈ e.vars, w.enabled = true ∧ w.key = K ∧ w.value = V) ∨ c K = some V := by
  induction folders generalizing c with
  | nil => exact Or.inr h
  | cons f t ih =>
    rw [List.foldl_cons] at h
    rcases ih _ h with hm | hb
    · exact Or.inl hm
    · exact applyFolder_apply_eq_some _ _ _ _ _ hb

/-- Claim C1: in terminal projection, when a project matched by the
workspace path has an enabled active-environment variable `K = V1` and the
workspace override set (whose keys are unique, as the upsert in
`addWorkspaceVariable` maintains) contains an enabled variable `K = V2`,
the resulting overlay maps `K` to `V2`: workspace overrides are applied
after the project variables and replace them unconditionally. -/
theorem c1_workspace_override_wins (projects : List Project) (folders : List String)
    (workspaceVars : List EnvVariable) (wp K V1 V2 : String) (p : Project)
    (env : Environment)
    (hwp : wp ∈ folders)
    (hproj : projects.find? (fun q => toLowerStr q.path == toLowerStr wp) = some p)
    (hactive : projectActiveEnv p = some env)
    (hv1 : (⟨K, V1, true⟩ : EnvVariable) ∈ env.vars)
    (hkeys : (workspaceVars.map (·.key)).Nodup)
    (hv2 : (⟨K, V2, true⟩ : EnvVariable) ∈ workspaceVars) :
    updateEnvironmentVariables SyncMode.terminal projects (some folders) workspaceVars K
      = some V2 := by
  show applyVars (folders.foldl (applyFolder projects) Collection.empty) workspaceVars K
      = some V2
  exact applyVars_apply_of_mem _ _ _ _ hv2 hkeys

/-- Concrete instantiation of claim C1. -/
theorem c1_workspace_override_wins_witness :
    updateEnvironmentVariables SyncMode.terminal
      [⟨"1", "proj", "/home/a", [⟨"e1", "dev", [⟨"K", "V1", true⟩]⟩], some "e1"⟩]
      (some ["/home/a"]) [⟨"K", "V2", true⟩] "K" = some "V2" :=
  c1_workspace_override_wins
    [⟨"1", "proj", "/home/a", [⟨"e1", "dev", [⟨"K", "V1", true⟩]⟩], some "e1"⟩]
    ["/home/a"] [⟨"K", "V2", true⟩] "/home/a" "K" "V1" "V2"
    ⟨"1", "proj", "/home/a", [⟨"e1", "dev", [⟨"K", "V1", true⟩]⟩], some "e1"⟩
    ⟨"e1", "dev", [⟨"K", "V1", true⟩]⟩
    (by decide) (by decide) (by decide) (by decide) (by decide) (by decide)

/-!
File projection: the pure merge algorithm of `EnvManager.writeEnvFile`
(src/EnvManager.ts:136-180).  Strings are handled at the character-list
level so that every step (the `split(/\r?\n/)`, `trim`, the
`^([^=]+)=(.*)$` match, the quote escaping and the final `join('\n')`)
is an executable structural recursion.
-/

/-- Whitespace as trimmed by JavaScript `String.prototype.trim` (the
ASCII part plus no-break space). -/
def isJsSpace (c : Char) : Bool :=
  c = ' ' || c = '\t' || c = '\n' || c = '\r' || c = '\x0b' || c = '\x0c' || c = '\xa0'

/-- JavaScript `line.trim()` on a character list. -/
def trimChars (l : List Char) : List Char :=
  ((l.dropWhile isJsSpace).reverse.dropWhile isJsSpace).reverse

/-- Helper for `splitLinesChars`: prepend a character to the first line. -/
def consHead (c : Char) : List (List Char) → List (List Char)
  | [] => [[c]]
  | l :: ls => (c :: l) :: ls

/-- JavaScript `content.split(/\r?\n/)`: split on `\n` or `\r\n`; a lone
`\r` is not a separator. -/
def splitLinesChars : List Char → List (List Char)
  | [] => [[]]
  | '\n' :: rest => [] :: splitLinesChars rest
  | '\r' :: '\n' :: rest => [] :: splitLinesChars rest
  | c :: rest => consHead c (splitLinesChars rest)

/-- Split at the first `=`: `breakEq l = some (before, after)` when `l`
contains an `=`. -/
def breakEq : List Char → Option (List Char × List Char)
  | [] => none
  | c :: rest =>
    if c = '=' then some ([], rest)
    else
      match breakEq rest with
      | none => none
      | some (k, v) => some (c :: k, v)

/-- The regex `^([^=]+)=(.*)$` of `writeEnvFile`: group 1 is the non-empty
run before the first `=`, group 2 the remainder. -/
def splitAssignChars (l : List Char) : Option (List Char × List Char) :=
  match breakEq l with
  | none => none
  | some (k, v) => if k = [] then none else some (k, v)

/-- Models `value.replace(/"/g, '\\"')`. -/
def escapeQuotesChars : List Char → List Char
  | [] => []
  | c :: rest =>
    if c = '"' then '\\' :: '"' :: escapeQuotesChars rest
    else c :: escapeQuotesChars rest

/-- The generated managed line `KEY="escaped-value"`. -/
def genLineChars (key value : List Char) : List Char :=
  key ++ '=' :: '"' :: (escapeQuotesChars value ++ ['"'])

/-- One iteration of the line loop of `writeEnvFile`: returns the output
line and, when a managed variable replaced the line, the processed key. -/
def mergeLineChars (envVars : List EnvVariable) (line : List Char) :
    List Char × Option (List Char) :=
  let trimmed := trimChars line
  match splitAssignChars trimmed with
  | none => (line, none)
  | some (k0, _) =>
    if trimmed.head? = some '#' then (line, none)
    else
      let key := trimChars k0
      match envVars.find? (fun v => v.key.data == key) with
      | none => (line, none)
      | some mv => (genLineChars key mv.value.data, some key)

/-- Steps 2-3 of `writeEnvFile`: rewrite managed assignment lines in
place, keep everything else, then append a generated line for every
managed variable whose key was not processed. -/
def mergeEnvLinesChars (lines : List (List Char)) (envVars : List EnvVariable) :
    List (List Char) :=
  let processed := lines.map (mergeLineChars envVars)
  let newLines := processed.map Prod.fst
  let processedKeys := processed.filterMap Prod.snd
  newLines ++
    (envVars.filter (fun v => ! processedKeys.contains v.key.data)).map
      (fun v => genLineChars v.key.data v.value.data)

/-- Models `newLines.join('\n')`. -/
def joinNewlineChars : List (List Char) → List Char
  | [] => []
  | [l] => l
  | l :: ls => l ++ '\n' :: joinNewlineChars ls

/-- The full content transformation of `EnvManager.writeEnvFile`
(src/EnvManager.ts:136-180): split the existing content into lines,
filter the active environment's variables to the enabled ones, merge,
and join with single newlines. -/
def writeEnvContent (existingContent : String) (vars : List EnvVariable) : String :=
  let lines := splitLinesChars existingContent.data
  let envVars := vars.filter (fun v => v.enabled)
  String.mk (joinNewlineChars (mergeEnvLinesChars lines envVars))

/-- A line that `writeEnvFile` copies through unchanged: blank, a
comment, or not an assignment to a key of one of the given (enabled)
variables. -/
def passThroughLine (envVars : List EnvVariable) (line : List Char) : Prop :=
  trimChars line = [] ∨ (trimChars line).head? = some '#' ∨
    ∀ k rest, splitAssignChars (trimChars line) = some (k, rest) →
      envVars.find? (fun v => v.key.data == trimChars k) = none

/-- The line loop leaves a pass-through line untouched. -/
theorem mergeLineChars_fst_of_passThrough (envVars : List EnvVariable)
    (line : List Char) (h : passThroughLine envVars line) :
    (mergeLineChars envVars line).1 = line := by
  cases hsplit : splitAssignChars (trimChars line) with
  | none => simp [mergeLineChars, hsplit]
  | some kv =>
    obtain ⟨k0, rest⟩ := kv
    by_cases hh : (trimChars line).head? = some '#'
    · simp [mergeLineChars, hsplit, hh]
    · rcases h with hblank | hhash | hkey
      · rw [hblank] at hsplit
        simp [splitAssignChars, breakEq] at hsplit
      · exact absurd hhash hh
      · have hfind := hkey k0 rest hsplit
        simp [mergeLineChars, hsplit, hh, hfind]

/-- Within the original line range, the merge output is the per-line
result. -/
theorem mergeEnvLinesChars_getElem? (lines : List (List Char))
    (envVars : List EnvVariable) (i : Nat) (h : i < lines.length) :
    (mergeEnvLinesChars lines envVars)[i]? =
      some (mergeLineChars envVars lines[i]).1 := by
  simp only [mergeEnvLinesChars]
  rw [List.getElem?_append, if_pos (by simpa using h)]
  simp [List.getElem?_eq_getElem, h]

/-- Claim C2: `writeEnvFile` copies through unchanged, at its original
position, every line that is blank, a comment, or an assignment to a key
not among the active environment's enabled variables; on the spec's
concrete example only the managed `FOO` line changes, to
`FOO="baz"`. -/
theorem c2_unmanaged_lines_preserved :
    (writeEnvContent "# comment\nFOO=bar\nUNMANAGED=zzz" [⟨"FOO", "baz", true⟩]
      = "# comment\nFOO=\"baz\"\nUNMANAGED=zzz") ∧
    ∀ (vars : List EnvVariable) (lines : List (List Char)) (i : Nat)
      (h : i < lines.length),
      passThroughLine (vars.filter (fun v => v.enabled)) lines[i] →
      (mergeEnvLinesChars lines (vars.filter (fun v => v.enabled)))[i]? =
        some lines[i] := by
  constructor
  · decide
  · intro vars lines i h hpass
    rw [mergeEnvLinesChars_getElem? _ _ _ h,
      mergeLineChars_fst_of_passThrough _ _ hpass]

/-- Concrete instantiation of claim C2's pass-through part: the comment
line of the spec's example is returned unchanged at index 0. -/
theorem c2_unmanaged_lines_preserved_witness :
    (mergeEnvLinesChars ["# comment".data, "FOO=bar".data, "UNMANAGED=zzz".data]
      (([⟨"FOO", "baz", true⟩] : List EnvVariable).filter (fun v => v.enabled)))[0]? =
      some "# comment".data :=
  c2_unmanaged_lines_preserved.2 [⟨"FOO", "baz", true⟩]
    ["# comment".data, "FOO=bar".data, "UNMANAGED=zzz".data] 0 (by decide)
    (Or.inr (Or.inl (by decide)))

/-- Counterexample to claim C5: on an empty target file with managed set
`A = "1"`, `B = "2"` the write result is not the claimed two lines
`A="1"\nB="2"`; the split of the empty content yields one empty line
which is copied through, so the result starts with a newline. -/
theorem c5_counterexample :
    writeEnvContent "" [⟨"A", "1", true⟩, ⟨"B", "2", true⟩] ≠ "A=\"1\"\nB=\"2\"" := by
  decide

/-- Claim C5 as amended: for an empty (or absent) target file the merge
keeps the single empty line produced by splitting the empty content and
then appends `KEY="value"` lines for all enabled managed variables in the
environment's variable order, so the result is `\nA="1"\nB="2"`. -/
theorem c5_empty_file_append (vars : List EnvVariable) :
    writeEnvContent "" [⟨"A", "1", true⟩, ⟨"B", "2", true⟩] = "\nA=\"1\"\nB=\"2\"" ∧
    mergeEnvLinesChars [[]] (vars.filter (fun v => v.enabled)) =
      [] :: (vars.filter (fun v => v.enabled)).map
        (fun v => genLineChars v.key.data v.value.data) := by
  constructor
  · decide
  · simp [mergeEnvLinesChars, mergeLineChars, splitAssignChars, breakEq, trimChars]

/-- Each line produced by the line loop is either the original line or the
generated `KEY="value"` line of one of the given (enabled) variables. -/
theorem mergeLineChars_fst_mem_or_gen (envVars : List EnvVariable)
    (line : List Char) :
    (mergeLineChars envVars line).1 = line ∨
    ∃ mv ∈ envVars,
      (mergeLineChars envVars line).1 = genLineChars mv.key.data mv.value.data := by
  cases hsplit : splitAssignChars (trimChars line) with
  | none => simp [mergeLineChars, hsplit]
  | some kv =>
    obtain ⟨k0, rest⟩ := kv
    by_cases hh : (trimChars line).head? = some '#'
    · simp [mergeLineChars, hsplit, hh]
    · cases hfind : envVars.find? (fun v => v.key.data == trimChars k0) with
      | none => simp [mergeLineChars, hsplit, hh, hfind]
      | some mv =>
        right
        refine ⟨mv, List.mem_of_find?_eq_some hfind, ?_⟩
        have hkey : mv.key.data = trimChars k0 := by
          have hp := List.find?_some hfind
          simpa using hp
        simp [mergeLineChars, hsplit, hh, hfind, hkey]

/-- Every line of the merge output is an original line or the generated
line of an enabled variable. -/
theorem mergeEnvLinesChars_mem (vars : List EnvVariable)
    (lines : List (List Char)) (l : List Char)
    (hl : l ∈ mergeEnvLinesChars lines (vars.filter (fun v => v.enabled))) :
    l ∈ lines ∨
    ∃ w ∈ vars, w.enabled = true ∧ l = genLineChars w.key.data w.value.data := by
  simp only [mergeEnvLinesChars] at hl
  rcases List.mem_append.mp hl with hmap | happ
  · rw [List.map_map] at hmap
    obtain ⟨line, hline, heq⟩ := List.mem_map.mp hmap
    rcases mergeLineChars_fst_mem_or_gen (vars.filter (fun v => v.enabled)) line with
      horig | ⟨mv, hmv, hgen⟩
    · left
      have : l = line := by rw [← heq]; simpa using horig
      rwa [this]
    · right
      obtain ⟨hmv1, hmv2⟩ := List.mem_filter.mp hmv
      refine ⟨mv, hmv1, by simpa using hmv2, ?_⟩
      rw [← heq]
      simpa using hgen
  · obtain ⟨w, hw, heq⟩ := List.mem_map.mp happ
    obtain ⟨hw1, _⟩ := List.mem_filter.mp hw
    obtain ⟨hw2, hw3⟩ := List.mem_filter.mp hw1
    exact Or.inr ⟨w, hw2, by simpa using hw3, heq.symm⟩

/-- Claim C8: a disabled variable record never appears in the projected
output.  Both projections only emit bindings that originate from an
`enabled = true` record: every binding of the terminal overlay comes from
an enabled variable of a matched project's active environment or an
enabled workspace override, and every line of the file merge is an
original file line or the generated line of an enabled variable. -/
theorem c8_disabled_never_appears :
    (∀ (mode : SyncMode) (projects : List Project) (wsf : Option (List String))
      (workspaceVars : List EnvVariable) (K V : String),
      updateEnvironmentVariables mode projects wsf workspaceVars K = some V →
      (∃ p ∈ projects, ∃ e, projectActiveEnv p = some e ∧
        ∃ w ∈ e.vars, w.enabled = true ∧ w.key = K ∧ w.value = V) ∨
      (∃ w ∈ workspaceVars, w.enabled = true ∧ w.key = K ∧ w.value = V)) ∧
    (∀ (vars : List EnvVariable) (lines : List (List Char)) (l : List Char),
      l ∈ mergeEnvLinesChars lines (vars.filter (fun v => v.enabled)) →
      l ∈ lines ∨
      ∃ w ∈ vars, w.enabled = true ∧ l = genLineChars w.key.data w.value.data) := by
  constructor
  · intro mode projects wsf workspaceVars K V h
    unfold updateEnvironmentVariables at h
    by_cases hmode : mode = SyncMode.file
    · rw [if_pos hmode] at h
      simp [Collection.empty] at h
    · rw [if_neg hmode] at h
      cases wsf with
      | none => simp [Collection.empty] at h
      | some folders =>
        rcases applyVars_apply_eq_some _ _ _ _ h with ⟨w, hw, h1, h2, h3⟩ | hbase
        · exact Or.inr ⟨w, hw, h1, h2, h3⟩
        · rcases foldl_applyFolder_apply_eq_some _ _ _ _ _ hbase with hm | hb
          · exact Or.inl hm
          · simp [Collection.empty] at hb
  · exact mergeEnvLinesChars_mem

/-- Concrete instantiation of claim C8's terminal part: the binding
`K = V1` observed in the overlay is traced back to an enabled record. -/
theorem c8_disabled_never_appears_witness :
    (∃ p ∈ [(⟨"1", "proj", "/home/a",
        [⟨"e1", "dev", [⟨"K", "V1", true⟩]⟩], some "e1"⟩ : Project)],
      ∃ e, projectActiveEnv p = some e ∧
        ∃ w ∈ e.vars, w.enabled = true ∧ w.key = "K" ∧ w.value = "V1") ∨
    (∃ w ∈ ([] : List EnvVariable),
      w.enabled = true ∧ w.key = "K" ∧ w.value = "V1") :=
  c8_disabled_never_appears.1 SyncMode.terminal
    [⟨"1", "proj", "/home/a", [⟨"e1", "dev", [⟨"K", "V1", true⟩]⟩], some "e1"⟩]
    (some ["/home/a"]) [] "K" "V1" (by decide)

/-!
Configuration-store mutations (src/EnvManager.ts:230-406).  Each JS
method re-reads the snapshot, mutates the first entity found by id in
place and saves; `updateFirst` captures that `find`-then-mutate shape.
-/

/-- Apply `f` to the first element satisfying `p`; the JS
`list.find(...)` followed by in-place mutation of the found element. -/
def updateFirst {α : Type _} (p : α → Bool) (f : α → α) : List α → List α
  | [] => []
  | x :: xs => if p x then f x :: xs else x :: updateFirst p f xs

theorem updateFirst_of_forall_not {α : Type _} (p : α → Bool) (f : α → α)
    (l : List α) (h : ∀ x ∈ l, p x = false) : updateFirst p f l = l := by
  induction l with
  | nil => rfl
  | cons x xs ih =>
    have hx : p x = false := h x (List.mem_cons_self x xs)
    have ht : updateFirst p f xs = xs :=
      ih (fun y hy => h y (List.mem_cons_of_mem _ hy))
    simp [updateFirst, hx, ht]

theorem updateFirst_of_fixed {α : Type _} (p : α → Bool) (f : α → α)
    (l : List α) (h : ∀ x ∈ l, f x = x) : updateFirst p f l = l := by
  induction l with
  | nil => rfl
  | cons x xs ih =>
    have hx : f x = x := h x (List.mem_cons_self x xs)
    have ht : updateFirst p f xs = xs :=
      ih (fun y hy => h y (List.mem_cons_of_mem _ hy))
    by_cases hp : p x = true
    · simp [updateFirst, hp, hx]
    · simp [updateFirst, hp, ht]

theorem mem_updateFirst {α : Type _} (p : α → Bool) (f : α → α) (l : List α)
    (x : α) (h : x ∈ updateFirst p f l) : x ∈ l ∨ ∃ y ∈ l, x = f y := by
  induction l with
  | nil => cases h
  | cons z zs ih =>
    by_cases hp : p z = true
    · simp only [updateFirst] at h
      rw [if_pos hp] at h
      rcases List.mem_cons.mp h with hx | hx
      · exact Or.inr ⟨z, List.mem_cons_self z zs, hx⟩
      · exact Or.inl (List.mem_cons_of_mem _ hx)
    · simp only [updateFirst] at h
      rw [if_neg hp] at h
      rcases List.mem_cons.mp h with hx | hx
      · exact Or.inl (hx ▸ List.mem_cons_self z zs)
      · rcases ih hx with h1 | ⟨y, hy, he⟩
        · exact Or.inl (List.mem_cons_of_mem _ h1)
        · exact Or.inr ⟨y, List.mem_cons_of_mem _ hy, he⟩

/-- Models `EnvManager.addProject` (src/EnvManager.ts:230-296).  The generated
id (`Date.now().toString()`) and the environment possibly imported from
`envFilePath` (an I/O read producing the `Check-in` environment, marked
active) are parameters; the duplicate check is
`projects.find(p => p.path === projectPath)`. -/
def addProject (projects : List Project) (newId name projectPath : String)
    (importEnv : Option Environment) : List Project :=
  if (projects.find? (fun p => p.path == projectPath)).isSome then projects
  else
    match importEnv with
    | none => projects ++ [⟨newId, name, projectPath, [], none⟩]
    | some env => projects ++ [⟨newId, name, projectPath, [env], some env.id⟩]

/-- Models `EnvManager.renameProject` (src/EnvManager.ts:304-311). -/
def renameProject (projects : List Project) (projectId newName : String) :
    List Project :=
  updateFirst (fun p => p.id == projectId) (fun p => { p with name := newName })
    projects

/-- The body of `EnvManager.deleteEnvironment` on the found project
(src/EnvManager.ts:332-335): drop the environment and clear `activeEnvId`
when it pointed at the deleted id. -/
def deleteEnvInProject (envId : String) (p : Project) : Project :=
  { p with
    environments := p.environments.filter (fun e => e.id != envId),
    activeEnvId := if p.activeEnvId = some envId then none else p.activeEnvId }

/-- Models `EnvManager.deleteEnvironment` (src/EnvManager.ts:328-338). -/
def deleteEnvironment (projects : List Project) (projectId envId : String) :
    List Project :=
  updateFirst (fun p => p.id == projectId) (deleteEnvInProject envId) projects

/-- Mutate the first environment found by id inside a project. -/
def updateFirstEnv (envId : String) (f : Environment → Environment)
    (p : Project) : Project :=
  { p with environments := updateFirst (fun e => e.id == envId) f p.environments }

/-- Models `EnvManager.renameEnvironment` (src/EnvManager.ts:340-350). -/
def renameEnvironment (projects : List Project) (projectId envId newName : String) :
    List Project :=
  updateFirst (fun p => p.id == projectId)
    (updateFirstEnv envId (fun e => { e with name := newName })) projects

/-- Models `EnvManager.setActiveEnvironment` (src/EnvManager.ts:352-366): sets
`activeEnvId := envId` on the found project with no check that `envId`
names one of its environments. -/
def setActiveEnvironment (projects : List Project) (projectId envId : String) :
    List Project :=
  updateFirst (fun p => p.id == projectId)
    (fun p => { p with activeEnvId := some envId }) projects

/-- Models `EnvManager.addVariable` (src/EnvManager.ts:368-378). -/
def addVariable (projects : List Project) (projectId envId key value : String) :
    List Project :=
  updateFirst (fun p => p.id == projectId)
    (updateFirstEnv envId (fun e => { e with vars := e.vars ++ [⟨key, value, true⟩] }))
    projects

/-- Models `EnvManager.deleteVariable` (src/EnvManager.ts:380-390). -/
def deleteVariable (projects : List Project) (projectId envId key : String) :
    List Project :=
  updateFirst (fun p => p.id == projectId)
    (updateFirstEnv envId
      (fun e => { e with vars := e.vars.filter (fun v => v.key != key) }))
    projects

/-- The in-place mutation of the found variable in `editVariable`. -/
def editVarRecord (newKey newValue : String) (v : EnvVariable) : EnvVariable :=
  { v with key := newKey, value := newValue }

/-- Models `EnvManager.editVariable` (src/EnvManager.ts:392-406). -/
def editVariable (projects : List Project)
    (projectId envId originalKey newKey newValue : String) : List Project :=
  updateFirst (fun p => p.id == projectId)
    (updateFirstEnv envId (fun e =>
      { e with
        vars := updateFirst (fun v => v.key == originalKey)
                  (editVarRecord newKey newValue) e.vars }))
    projects

/-- Counterexample to claim C6: `addProject` compares paths with exact
(`===`) string equality, so a path equal to an existing project's path
only case-insensitively (`/foo` versus `/FOO`) is not rejected — the
project is appended and the snapshot changes. -/
theorem c6_counterexample :
    addProject [⟨"1", "p", "/FOO", [], none⟩] "2" "q" "/foo" none ≠
      [⟨"1", "p", "/FOO", [], none⟩] := by
  decide

/-- Claim C6 as amended: adding a project whose path is exactly
(case-sensitively) equal to an existing project's path is rejected before
any mutation and the snapshot is left completely unchanged; only exact
equality is checked, not case-insensitive equality. -/
theorem c6_duplicate_path_rejected (projects : List Project)
    (newId name projectPath : String) (importEnv : Option Environment)
    (h : ∃ p ∈ projects, p.path = projectPath) :
    addProject projects newId name projectPath importEnv = projects := by
  have hsome : (projects.find? (fun p => p.path == projectPath)).isSome := by
    rw [List.find?_isSome]
    obtain ⟨p, hp, he⟩ := h
    exact ⟨p, hp, by simpa using he⟩
  unfold addProject
  rw [if_pos hsome]

/-- Concrete instantiation of amended claim C6. -/
theorem c6_duplicate_path_rejected_witness :
    addProject [⟨"1", "p", "/foo", [], none⟩] "2" "q" "/foo" none =
      [⟨"1", "p", "/foo", [], none⟩] :=
  c6_duplicate_path_rejected [⟨"1", "p", "/foo", [], none⟩] "2" "q" "/foo" none
    ⟨⟨"1", "p", "/foo", [], none⟩, by decide, rfl⟩

/-- The mandatory snapshot invariant: `activeEnvId`, when present, names
an environment of the project. -/
def ProjInv (p : Project) : Prop :=
  ∀ a, p.activeEnvId = some a → ∃ e ∈ p.environments, e.id = a

/-- Models `deleteEnvInProject` preserves the active-pointer invariant. -/
theorem projInv_deleteEnvInProject (envId : String) (p : Project)
    (h : ProjInv p) : ProjInv (deleteEnvInProject envId p) := by
  intro a ha
  simp only [deleteEnvInProject] at ha ⊢
  by_cases hcase : p.activeEnvId = some envId
  · rw [if_pos hcase] at ha
    cases ha
  · rw [if_neg hcase] at ha
    obtain ⟨e, he, heid⟩ := h a ha
    refine ⟨e, ?_, heid⟩
    rw [List.mem_filter]
    refine ⟨he, ?_⟩
    simp only [bne_iff_ne, ne_eq]
    intro hcontra
    exact hcase (by rw [ha, ← heid, hcontra])

/-- Claim C7: deleting the environment pointed at by `activeEnvId`
removes it and clears `activeEnvId`, and `deleteEnvironment` preserves
the no-dangling-reference invariant on every project of the snapshot. -/
theorem c7_delete_active_env_clears_pointer (projects : List Project)
    (projectId envId : String) (hinv : ∀ p ∈ projects, ProjInv p) :
    (∀ p : Project, p.activeEnvId = some envId →
      (deleteEnvInProject envId p).activeEnvId = none ∧
      ∀ e ∈ (deleteEnvInProject envId p).environments, e.id ≠ envId) ∧
    (∀ p ∈ deleteEnvironment projects projectId envId, ProjInv p) := by
  constructor
  · intro p hp
    constructor
    · simp [deleteEnvInProject, hp]
    · intro e he
      simp only [deleteEnvInProject] at he
      have := (List.mem_filter.mp he).2
      simpa using this
  · intro p hp
    rcases mem_updateFirst _ _ _ _ hp with hmem | ⟨y, hy, heq⟩
    · exact hinv p hmem
    · rw [heq]
      exact projInv_deleteEnvInProject _ _ (hinv y hy)

/-- Concrete instantiation of claim C7. -/
theorem c7_delete_active_env_clears_pointer_witness :
    (∀ p : Project, p.activeEnvId = some "e1" →
      (deleteEnvInProject "e1" p).activeEnvId = none ∧
      ∀ e ∈ (deleteEnvInProject "e1" p).environments, e.id ≠ "e1") ∧
    (∀ p ∈ deleteEnvironment
        [⟨"1", "p", "/a", [⟨"e1", "dev", []⟩], some "e1"⟩] "1" "e1", ProjInv p) :=
  c7_delete_active_env_clears_pointer
    [⟨"1", "p", "/a", [⟨"e1", "dev", []⟩], some "e1"⟩] "1" "e1"
    (by
      intro p hp a ha
      rw [List.mem_singleton] at hp
      subst hp
      simp only [Option.some.injEq] at ha
      exact ⟨⟨"e1", "dev", []⟩, by simp, by simp [← ha]⟩)

theorem updateFirst_project_not_found (projects : List Project)
    (projectId : String) (f : Project → Project)
    (h : ∀ p ∈ projects, p.id ≠ projectId) :
    updateFirst (fun p => p.id == projectId) f projects = projects :=
  updateFirst_of_forall_not _ _ _ (fun x hx => by simp [h x hx])

theorem updateFirstEnv_not_found (envId : String)
    (f : Environment → Environment) (p : Project)
    (h : ∀ e ∈ p.environments, e.id ≠ envId) : updateFirstEnv envId f p = p := by
  unfold updateFirstEnv
  rw [updateFirst_of_forall_not _ _ _ (fun e he => by simp [h e he])]

theorem updateFirstEnv_of_fixed (envId : String)
    (f : Environment → Environment) (p : Project)
    (h : ∀ e ∈ p.environments, f e = e) : updateFirstEnv envId f p = p := by
  unfold updateFirstEnv
  rw [updateFirst_of_fixed _ _ _ h]

/-- Counterexample to claim C9: `setActiveEnvironment` does not check
that the referenced environment id exists.  On a project with no
environments it still sets `activeEnvId := some "zzz"`, so the snapshot
changes (and a dangling reference is created) instead of a no-op. -/
theorem c9_counterexample :
    setActiveEnvironment [⟨"1", "p", "/a", [], none⟩] "1" "zzz" ≠
      [⟨"1", "p", "/a", [], none⟩] := by
  decide

/-- Claim C9 as amended: the id-addressed mutations are silent no-ops
when the referenced project id is missing (all seven operations), when
the referenced environment id is missing (all but `setActiveEnvironment`,
which blindly sets the dangling id; for `deleteEnvironment` the snapshot
invariant is assumed so that no active pointer names the missing id), and
when the referenced variable key is missing (`editVariable`,
`deleteVariable`). -/
theorem c9_missing_id_noop (projects : List Project)
    (projectId envId newName key value originalKey newKey newValue : String) :
    ((∀ p ∈ projects, p.id ≠ projectId) →
      renameProject projects projectId newName = projects ∧
      deleteEnvironment projects projectId envId = projects ∧
      renameEnvironment projects projectId envId newName = projects ∧
      setActiveEnvironment projects projectId envId = projects ∧
      addVariable projects projectId envId key value = projects ∧
      deleteVariable projects projectId envId key = projects ∧
      editVariable projects projectId envId originalKey newKey newValue
        = projects) ∧
    ((∀ p ∈ projects, ProjInv p) →
      (∀ p ∈ projects, ∀ e ∈ p.environments, e.id ≠ envId) →
      deleteEnvironment projects projectId envId = projects ∧
      renameEnvironment projects projectId envId newName = projects ∧
      addVariable projects projectId envId key value = projects ∧
      deleteVariable projects projectId envId key = projects ∧
      editVariable projects projectId envId originalKey newKey newValue
        = projects) ∧
    ((∀ p ∈ projects, ∀ e ∈ p.environments, ∀ v ∈ e.vars, v.key ≠ originalKey) →
      editVariable projects projectId envId originalKey newKey newValue
        = projects) ∧
    ((∀ p ∈ projects, ∀ e ∈ p.environments, ∀ v ∈ e.vars, v.key ≠ key) →
      deleteVariable projects projectId envId key = projects) := by
  refine ⟨?_, ?_, ?_, ?_⟩
  · intro h
    exact ⟨updateFirst_project_not_found _ _ _ h,
      updateFirst_project_not_found _ _ _ h,
      updateFirst_project_not_found _ _ _ h,
      updateFirst_project_not_found _ _ _ h,
      updateFirst_project_not_found _ _ _ h,
      updateFirst_project_not_found _ _ _ h,
      updateFirst_project_not_found _ _ _ h⟩
  · intro hinv henv
    have hdel : ∀ p ∈ projects, deleteEnvInProject envId p = p := by
      intro p hp
      have h1 : p.environments.filter (fun e => e.id != envId) = p.environments :=
        List.filter_eq_self.mpr (fun e he => by simp [henv p hp e he])
      have h2 : (if p.activeEnvId = some envId then none else p.activeEnvId)
          = p.activeEnvId := by
        rw [if_neg]
        intro hc
        obtain ⟨e, he, heid⟩ := hinv p hp envId hc
        exact henv p hp e he heid
      unfold deleteEnvInProject
      rw [h1, h2]
    refine ⟨updateFirst_of_fixed _ _ _ hdel,
      updateFirst_of_fixed _ _ _ (fun p hp => updateFirstEnv_not_found _ _ _ (henv p hp)),
      updateFirst_of_fixed _ _ _ (fun p hp => updateFirstEnv_not_found _ _ _ (henv p hp)),
      updateFirst_of_fixed _ _ _ (fun p hp => updateFirstEnv_not_found _ _ _ (henv p hp)),
      updateFirst_of_fixed _ _ _ (fun p hp => updateFirstEnv_not_found _ _ _ (henv p hp))⟩
  · intro hkey
    refine updateFirst_of_fixed _ _ _ (fun p hp => ?_)
    refine updateFirstEnv_of_fixed _ _ _ (fun e he => ?_)
    have hfix : updateFirst (fun v => v.key == originalKey)
        (editVarRecord newKey newValue) e.vars = e.vars :=
      updateFirst_of_forall_not _ _ _ (fun v hv => by simp [hkey p hp e he v hv])
    rw [hfix]
  · intro hkey
    refine updateFirst_of_fixed _ _ _ (fun p hp => ?_)
    refine updateFirstEnv_of_fixed _ _ _ (fun e he => ?_)
    have hfix : e.vars.filter (fun v => v.key != key) = e.vars :=
      List.filter_eq_self.mpr (fun v hv => by simp [hkey p hp e he v hv])
    rw [hfix]

/-- Concrete instantiation of amended claim C9: renaming a project whose
id is absent leaves the snapshot unchanged. -/
theorem c9_missing_id_noop_witness :
    renameProject [⟨"1", "p", "/a", [], none⟩] "zzz" "n" =
      [⟨"1", "p", "/a", [], none⟩] :=
  ((c9_missing_id_noop [⟨"1", "p", "/a", [], none⟩]
    "zzz" "e9" "n" "k" "v" "ok" "nk" "nv").1 (by decide)).1

/-!
Filesystem layer (`writeEnvFile` / `restoreEnvFile` / `toggleSyncMode`,
src/EnvManager.ts:52-185).  The filesystem is the map from paths to file
contents; `vscode.workspace.fs` operations become updates of that map.
-/

/-- The filesystem: path to file content, `none` when absent. -/
def Fs := String → Option String

/-- Models `fs.writeFile` (also `fs.copy` with the source content in hand). -/
def fsWrite (fs : Fs) (path content : String) : Fs :=
  fun q => if q = path then some content else fs q

/-- Models `fs.delete`. -/
def fsDelete (fs : Fs) (path : String) : Fs :=
  fun q => if q = path then none else fs q

/-- Models `path.join(project.path, name)` for the two plain file names used. -/
def joinPath (dir file : String) : String := dir ++ "/" ++ file

theorem fsWrite_self (fs : Fs) (path content : String) :
    fsWrite fs path content path = some content := by
  simp [fsWrite]

theorem fsWrite_ne (fs : Fs) (path content q : String) (h : q ≠ path) :
    fsWrite fs path content q = fs q := by
  simp [fsWrite, h]

theorem fsDelete_self (fs : Fs) (path : String) : fsDelete fs path path = none := by
  simp [fsDelete]

theorem fsDelete_ne (fs : Fs) (path q : String) (h : q ≠ path) :
    fsDelete fs path q = fs q := by
  simp [fsDelete, h]

theorem joinPath_data (dir file : String) :
    (joinPath dir file).data = dir.data ++ '/' :: file.data := by
  show dir.data ++ "/".data ++ file.data = dir.data ++ '/' :: file.data
  simp

/-- A `.env` path never coincides with a `.env.bak` path (their last
characters differ). -/
theorem joinPath_env_ne_bak (a b : String) :
    joinPath a ".env" ≠ joinPath b ".env.bak" := by
  intro h
  have hd := congrArg String.data h
  rw [joinPath_data, joinPath_data] at hd
  have hl := congrArg List.getLast? hd
  rw [List.getLast?_append_of_ne_nil _ (by simp),
    List.getLast?_append_of_ne_nil _ (by simp)] at hl
  revert hl
  decide

theorem joinPath_inj_left (a b f : String) (h : joinPath a f = joinPath b f) :
    a = b := by
  have hd := congrArg String.data h
  rw [joinPath_data, joinPath_data] at hd
  exact String.ext (List.append_cancel_right hd)

/-- Models `EnvManager.writeEnvFile` (src/EnvManager.ts:106-185) as a filesystem
transformer: without a resolvable active environment it returns early;
otherwise it reads the target (an absent target yields empty content and
skips the backup step entirely), creates the backup only when the target
was read and no backup exists, merges, and writes the target back. -/
def writeEnvFile (fs : Fs) (project : Project) : Fs :=
  match projectActiveEnv project with
  | none => fs
  | some env =>
    let envPath := joinPath project.path ".env"
    let bakPath := joinPath project.path ".env.bak"
    match fs envPath with
    | some existingContent =>
      fsWrite
        (if (fs bakPath).isSome then fs else fsWrite fs bakPath existingContent)
        envPath (writeEnvContent existingContent env.vars)
    | none => fsWrite fs envPath (writeEnvContent "" env.vars)

/-- Models `EnvManager.restoreEnvFile` (src/EnvManager.ts:84-104): without a
backup it is a no-op; otherwise copy the backup over the target
(overwriting) and delete the backup. -/
def restoreEnvFile (fs : Fs) (project : Project) : Fs :=
  match fs (joinPath project.path ".env.bak") with
  | none => fs
  | some bakContent =>
    fsDelete (fsWrite fs (joinPath project.path ".env") bakContent)
      (joinPath project.path ".env.bak")

theorem writeEnvFile_of_no_active (fs : Fs) (p : Project)
    (h : projectActiveEnv p = none) : writeEnvFile fs p = fs := by
  unfold writeEnvFile
  rw [h]

theorem writeEnvFile_of_read (fs : Fs) (p : Project) (env : Environment)
    (content : String) (hae : projectActiveEnv p = some env)
    (hread : fs (joinPath p.path ".env") = some content) :
    writeEnvFile fs p =
      fsWrite
        (if (fs (joinPath p.path ".env.bak")).isSome then fs
         else fsWrite fs (joinPath p.path ".env.bak") content)
        (joinPath p.path ".env") (writeEnvContent content env.vars) := by
  unfold writeEnvFile
  rw [hae]
  simp only [hread]

theorem writeEnvFile_of_absent (fs : Fs) (p : Project) (env : Environment)
    (hae : projectActiveEnv p = some env)
    (hread : fs (joinPath p.path ".env") = none) :
    writeEnvFile fs p =
      fsWrite fs (joinPath p.path ".env") (writeEnvContent "" env.vars) := by
  unfold writeEnvFile
  rw [hae]
  simp only [hread]

theorem restoreEnvFile_of_no_bak (fs : Fs) (p : Project)
    (h : fs (joinPath p.path ".env.bak") = none) : restoreEnvFile fs p = fs := by
  unfold restoreEnvFile
  rw [h]

theorem restoreEnvFile_of_bak (fs : Fs) (p : Project) (b : String)
    (h : fs (joinPath p.path ".env.bak") = some b) :
    restoreEnvFile fs p =
      fsDelete (fsWrite fs (joinPath p.path ".env") b)
        (joinPath p.path ".env.bak") := by
  unfold restoreEnvFile
  rw [h]

/-- Claim C3: when the target file exists, writing twice never overwrites
an already-existing backup (first-write-wins), and starting from no
backup, a restore after two writes yields exactly the content the target
had before the first write. -/
theorem c3_backup_first_write_wins (fs : Fs) (p : Project) (orig : String)
    (henv : fs (joinPath p.path ".env") = some orig) :
    (∀ b, fs (joinPath p.path ".env.bak") = some b →
      writeEnvFile (writeEnvFile fs p) p (joinPath p.path ".env.bak") = some b) ∧
    (fs (joinPath p.path ".env.bak") = none →
      restoreEnvFile (writeEnvFile (writeEnvFile fs p) p) p
        (joinPath p.path ".env") = some orig) := by
  cases hae : projectActiveEnv p with
  | none =>
    have hw : writeEnvFile fs p = fs := writeEnvFile_of_no_active fs p hae
    constructor
    · intro b hb
      rw [hw, hw]
      exact hb
    · intro hb
      rw [hw, hw, restoreEnvFile_of_no_bak fs p hb]
      exact henv
  | some env =>
    constructor
    · intro b hb
      have h1 : writeEnvFile fs p = fsWrite fs (joinPath p.path ".env")
          (writeEnvContent orig env.vars) := by
        rw [writeEnvFile_of_read fs p env orig hae henv, if_pos (by rw [hb]; rfl)]
      have hb1 : (writeEnvFile fs p) (joinPath p.path ".env.bak") = some b := by
        rw [h1, fsWrite_ne _ _ _ _ (Ne.symm (joinPath_env_ne_bak _ _))]
        exact hb
      have he1 : (writeEnvFile fs p) (joinPath p.path ".env") =
          some (writeEnvContent orig env.vars) := by
        rw [h1]
        exact fsWrite_self _ _ _
      have h2 : writeEnvFile (writeEnvFile fs p) p =
          fsWrite (writeEnvFile fs p) (joinPath p.path ".env")
            (writeEnvContent (writeEnvContent orig env.vars) env.vars) := by
        rw [writeEnvFile_of_read _ p env _ hae he1, if_pos (by rw [hb1]; rfl)]
      rw [h2, fsWrite_ne _ _ _ _ (Ne.symm (joinPath_env_ne_bak _ _))]
      exact hb1
    · intro hb
      have h1 : writeEnvFile fs p =
          fsWrite (fsWrite fs (joinPath p.path ".env.bak") orig)
            (joinPath p.path ".env") (writeEnvContent orig env.vars) := by
        rw [writeEnvFile_of_read fs p env orig hae henv, if_neg (by rw [hb]; simp)]
      have hb1 : (writeEnvFile fs p) (joinPath p.path ".env.bak") = some orig := by
        rw [h1, fsWrite_ne _ _ _ _ (Ne.symm (joinPath_env_ne_bak _ _)), fsWrite_self]
      have he1 : (writeEnvFile fs p) (joinPath p.path ".env") =
          some (writeEnvContent orig env.vars) := by
        rw [h1]
        exact fsWrite_self _ _ _
      have h2 : writeEnvFile (writeEnvFile fs p) p =
          fsWrite (writeEnvFile fs p) (joinPath p.path ".env")
            (writeEnvContent (writeEnvContent orig env.vars) env.vars) := by
        rw [writeEnvFile_of_read _ p env _ hae he1, if_pos (by rw [hb1]; rfl)]
      have hb2 : (writeEnvFile (writeEnvFile fs p) p)
          (joinPath p.path ".env.bak") = some orig := by
        rw [h2, fsWrite_ne _ _ _ _ (Ne.symm (joinPath_env_ne_bak _ _))]
        exact hb1
      rw [restoreEnvFile_of_bak _ p orig hb2,
        fsDelete_ne _ _ _ (joinPath_env_ne_bak _ _), fsWrite_self]

/-- Concrete instantiation of claim C3: the original content `X=1`
survives two managed writes and is restored. -/
theorem c3_backup_first_write_wins_witness :
    restoreEnvFile
      (writeEnvFile
        (writeEnvFile (fun q => if q = "/a/.env" then some "X=1" else none)
          ⟨"1", "p", "/a", [⟨"e1", "dev", [⟨"X", "2", true⟩]⟩], some "e1"⟩)
        ⟨"1", "p", "/a", [⟨"e1", "dev", [⟨"X", "2", true⟩]⟩], some "e1"⟩)
      ⟨"1", "p", "/a", [⟨"e1", "dev", [⟨"X", "2", true⟩]⟩], some "e1"⟩
      (joinPath "/a" ".env") = some "X=1" :=
  (c3_backup_first_write_wins _ _ "X=1" (by decide)).2 (by decide)

/-- Claim C10: when the target file is absent, `writeEnvFile` creates no
backup (the backup step is only reached after a successful read), so a
later `restoreEnvFile` is a no-op and the generated target file stays in
place. -/
theorem c10_absent_target_no_backup (fs : Fs) (p : Project)
    (henv : fs (joinPath p.path ".env") = none)
    (hbak : fs (joinPath p.path ".env.bak") = none) :
    (writeEnvFile fs p) (joinPath p.path ".env.bak") = none ∧
    restoreEnvFile (writeEnvFile fs p) p = writeEnvFile fs p ∧
    ∀ env, projectActiveEnv p = some env →
      (restoreEnvFile (writeEnvFile fs p) p) (joinPath p.path ".env") =
        some (writeEnvContent "" env.vars) := by
  cases hae : projectActiveEnv p with
  | none =>
    have hw := writeEnvFile_of_no_active fs p hae
    refine ⟨by rw [hw]; exact hbak,
      by rw [hw]; exact restoreEnvFile_of_no_bak fs p hbak, ?_⟩
    intro env he
    cases he
  | some env =>
    have hw := writeEnvFile_of_absent fs p env hae henv
    have hb1 : (writeEnvFile fs p) (joinPath p.path ".env.bak") = none := by
      rw [hw, fsWrite_ne _ _ _ _ (Ne.symm (joinPath_env_ne_bak _ _))]
      exact hbak
    have hr : restoreEnvFile (writeEnvFile fs p) p = writeEnvFile fs p :=
      restoreEnvFile_of_no_bak _ p hb1
    refine ⟨hb1, hr, ?_⟩
    intro env' he
    obtain rfl : env' = env := (Option.some.inj he).symm
    rw [hr, hw]
    exact fsWrite_self _ _ _

/-- Concrete instantiation of claim C10: no backup appears when the
target was absent. -/
theorem c10_absent_target_no_backup_witness :
    (writeEnvFile (fun _ => none)
      ⟨"1", "p", "/a", [⟨"e1", "dev", [⟨"X", "2", true⟩]⟩], some "e1"⟩)
      (joinPath "/a" ".env.bak") = none :=
  (c10_absent_target_no_backup (fun _ => none)
    ⟨"1", "p", "/a", [⟨"e1", "dev", [⟨"X", "2", true⟩]⟩], some "e1"⟩
    rfl rfl).1

/-- Models `EnvManager.syncAllActiveProjectsToFile` (src/EnvManager.ts:66-75):
write the file of every project with an active environment id. -/
def syncAllActiveProjectsToFile (fs : Fs) (projects : List Project) : Fs :=
  projects.foldl
    (fun fs p => if p.activeEnvId.isSome then writeEnvFile fs p else fs) fs

/-- Models `EnvManager.revertAllActiveProjectsFromFile` (src/EnvManager.ts:77-82):
restore every project. -/
def revertAllActiveProjectsFromFile (fs : Fs) (projects : List Project) : Fs :=
  projects.foldl restoreEnvFile fs

/-- Models `EnvManager.toggleSyncMode` (src/EnvManager.ts:52-64): flip the mode;
entering `file` writes all active projects, entering `terminal` restores
all projects. -/
def toggleSyncMode (mode : SyncMode) (fs : Fs) (projects : List Project) :
    SyncMode × Fs :=
  let newMode :=
    if mode = SyncMode.terminal then SyncMode.file else SyncMode.terminal
  if newMode = SyncMode.file then
    (newMode, syncAllActiveProjectsToFile fs projects)
  else
    (newMode, revertAllActiveProjectsFromFile fs projects)

theorem syncAll_cons (fs : Fs) (q : Project) (t : List Project) :
    syncAllActiveProjectsToFile fs (q :: t) =
      syncAllActiveProjectsToFile
        (if q.activeEnvId.isSome then writeEnvFile fs q else fs) t := rfl

theorem revertAll_cons (fs : Fs) (q : Project) (t : List Project) :
    revertAllActiveProjectsFromFile fs (q :: t) =
      revertAllActiveProjectsFromFile (restoreEnvFile fs q) t := rfl

/-- Models `writeEnvFile` only touches the project's `.env` and `.env.bak`. -/
theorem writeEnvFile_apply_ne (fs : Fs) (q : Project) (r : String)
    (h1 : r ≠ joinPath q.path ".env") (h2 : r ≠ joinPath q.path ".env.bak") :
    writeEnvFile fs q r = fs r := by
  cases hae : projectActiveEnv q with
  | none => rw [writeEnvFile_of_no_active fs q hae]
  | some env =>
    cases hr : fs (joinPath q.path ".env") with
    | none => rw [writeEnvFile_of_absent fs q env hae hr, fsWrite_ne _ _ _ _ h1]
    | some c =>
      rw [writeEnvFile_of_read fs q env c hae hr, fsWrite_ne _ _ _ _ h1]
      by_cases hb : (fs (joinPath q.path ".env.bak")).isSome
      · rw [if_pos hb]
      · rw [if_neg hb, fsWrite_ne _ _ _ _ h2]

/-- Models `restoreEnvFile` only touches the project's `.env` and `.env.bak`. -/
theorem restoreEnvFile_apply_ne (fs : Fs) (q : Project) (r : String)
    (h1 : r ≠ joinPath q.path ".env") (h2 : r ≠ joinPath q.path ".env.bak") :
    restoreEnvFile fs q r = fs r := by
  cases hb : fs (joinPath q.path ".env.bak") with
  | none => rw [restoreEnvFile_of_no_bak _ _ hb]
  | some b =>
    rw [restoreEnvFile_of_bak _ _ b hb, fsDelete_ne _ _ _ h2,
      fsWrite_ne _ _ _ _ h1]

/-- Distinct project paths give disjoint `.env` / `.env.bak` slots. -/
theorem slots_ne_of_path_ne (ppath qpath : String) (h : ppath ≠ qpath) :
    joinPath ppath ".env" ≠ joinPath qpath ".env" ∧
    joinPath ppath ".env" ≠ joinPath qpath ".env.bak" ∧
    joinPath ppath ".env.bak" ≠ joinPath qpath ".env" ∧
    joinPath ppath ".env.bak" ≠ joinPath qpath ".env.bak" :=
  ⟨fun he => h (joinPath_inj_left _ _ _ he),
   joinPath_env_ne_bak _ _,
   fun he => joinPath_env_ne_bak qpath ppath he.symm,
   fun he => h (joinPath_inj_left _ _ _ he)⟩

theorem syncAll_apply_ne (l : List Project) (fs : Fs) (r : String)
    (h : ∀ q ∈ l, r ≠ joinPath q.path ".env" ∧ r ≠ joinPath q.path ".env.bak") :
    syncAllActiveProjectsToFile fs l r = fs r := by
  induction l generalizing fs with
  | nil => rfl
  | cons q t ih =>
    rw [syncAll_cons, ih _ (fun x hx => h x (List.mem_cons_of_mem _ hx))]
    obtain ⟨h1, h2⟩ := h q (List.mem_cons_self q t)
    by_cases hg : q.activeEnvId.isSome
    · rw [if_pos hg]
      exact writeEnvFile_apply_ne fs q r h1 h2
    · rw [if_neg hg]

theorem revertAll_apply_ne (l : List Project) (fs : Fs) (r : String)
    (h : ∀ q ∈ l, r ≠ joinPath q.path ".env" ∧ r ≠ joinPath q.path ".env.bak") :
    revertAllActiveProjectsFromFile fs l r = fs r := by
  induction l generalizing fs with
  | nil => rfl
  | cons q t ih =>
    rw [revertAll_cons, ih _ (fun x hx => h x (List.mem_cons_of_mem _ hx))]
    obtain ⟨h1, h2⟩ := h q (List.mem_cons_self q t)
    exact restoreEnvFile_apply_ne fs q r h1 h2

theorem isSome_of_projectActiveEnv (p : Project) (env : Environment)
    (h : projectActiveEnv p = some env) : p.activeEnvId.isSome = true := by
  unfold projectActiveEnv at h
  cases ha : p.activeEnvId with
  | none => rw [ha] at h; cases h
  | some i => rfl

/-- Effect of the `terminal -> file` sync loop on one member project's
`.env` and `.env.bak` slots, for a snapshot with pairwise distinct
project paths, a readable target and no pre-existing backup. -/
theorem syncAll_at_member (l : List Project) (fs : Fs) (p : Project)
    (orig : String) (hnodup : (l.map (·.path)).Nodup) (hp : p ∈ l)
    (henv : fs (joinPath p.path ".env") = some orig)
    (hbak : fs (joinPath p.path ".env.bak") = none) :
    (projectActiveEnv p = none →
      syncAllActiveProjectsToFile fs l (joinPath p.path ".env") = some orig ∧
      syncAllActiveProjectsToFile fs l (joinPath p.path ".env.bak") = none) ∧
    (∀ env, projectActiveEnv p = some env →
      syncAllActiveProjectsToFile fs l (joinPath p.path ".env") =
        some (writeEnvContent orig env.vars) ∧
      syncAllActiveProjectsToFile fs l (joinPath p.path ".env.bak") =
        some orig) := by
  induction l generalizing fs with
  | nil => cases hp
  | cons q t ih =>
    simp only [List.map_cons, List.nodup_cons] at hnodup
    rcases List.mem_cons.mp hp with rfl | hpt
    · have hframe : ∀ x ∈ t, p.path ≠ x.path := by
        intro x hx he
        exact hnodup.1 (he ▸ List.mem_map_of_mem (·.path) hx)
      have hfe : ∀ x ∈ t, joinPath p.path ".env" ≠ joinPath x.path ".env" ∧
          joinPath p.path ".env" ≠ joinPath x.path ".env.bak" := by
        intro x hx
        obtain ⟨a, b, _, _⟩ := slots_ne_of_path_ne p.path x.path (hframe x hx)
        exact ⟨a, b⟩
      have hfb : ∀ x ∈ t, joinPath p.path ".env.bak" ≠ joinPath x.path ".env" ∧
          joinPath p.path ".env.bak" ≠ joinPath x.path ".env.bak" := by
        intro x hx
        obtain ⟨_, _, a, b⟩ := slots_ne_of_path_ne p.path x.path (hframe x hx)
        exact ⟨a, b⟩
      constructor
      · intro hae
        have hstep : (if p.activeEnvId.isSome then writeEnvFile fs p else fs) = fs := by
          by_cases hg : p.activeEnvId.isSome
          · rw [if_pos hg, writeEnvFile_of_no_active fs p hae]
          · rw [if_neg hg]
        rw [syncAll_cons, hstep, syncAll_apply_ne t fs _ hfe,
          syncAll_apply_ne t fs _ hfb]
        exact ⟨henv, hbak⟩
      · intro env hae
        have hg := isSome_of_projectActiveEnv p env hae
        rw [syncAll_cons, if_pos hg,
          writeEnvFile_of_read fs p env orig hae henv,
          if_neg (by rw [hbak]; simp)]
        constructor
        · rw [syncAll_apply_ne t _ _ hfe, fsWrite_self]
        · rw [syncAll_apply_ne t _ _ hfb,
            fsWrite_ne _ _ _ _ (Ne.symm (joinPath_env_ne_bak _ _)), fsWrite_self]
    · have hqp : p.path ≠ q.path := by
        intro he
        exact hnodup.1 (he ▸ List.mem_map_of_mem (·.path) hpt)
      obtain ⟨s1, s2, s3, s4⟩ := slots_ne_of_path_ne p.path q.path hqp
      have hstep_env :
          (if q.activeEnvId.isSome then writeEnvFile fs q else fs)
            (joinPath p.path ".env") = some orig := by
        by_cases hg : q.activeEnvId.isSome
        · rw [if_pos hg, writeEnvFile_apply_ne fs q _ s1 s2]
          exact henv
        · rw [if_neg hg]
          exact henv
      have hstep_bak :
          (if q.activeEnvId.isSome then writeEnvFile fs q else fs)
            (joinPath p.path ".env.bak") = none := by
        by_cases hg : q.activeEnvId.isSome
        · rw [if_pos hg, writeEnvFile_apply_ne fs q _ s3 s4]
          exact hbak
        · rw [if_neg hg]
          exact hbak
      rw [syncAll_cons]
      exact ih _ hnodup.2 hpt hstep_env hstep_bak

/-- Effect of the `file -> terminal` restore loop on one member project
whose backup exists: the backup content lands in `.env` and the backup is
deleted. -/
theorem revertAll_at_member_bak (l : List Project) (fs : Fs) (p : Project)
    (orig : String) (hnodup : (l.map (·.path)).Nodup) (hp : p ∈ l)
    (hbak : fs (joinPath p.path ".env.bak") = some orig) :
    revertAllActiveProjectsFromFile fs l (joinPath p.path ".env") = some orig ∧
    revertAllActiveProjectsFromFile fs l (joinPath p.path ".env.bak") = none := by
  induction l generalizing fs with
  | nil => cases hp
  | cons q t ih =>
    simp only [List.map_cons, List.nodup_cons] at hnodup
    rcases List.mem_cons.mp hp with rfl | hpt
    · have hframe : ∀ x ∈ t, p.path ≠ x.path := by
        intro x hx he
        exact hnodup.1 (he ▸ List.mem_map_of_mem (·.path) hx)
      have hfe : ∀ x ∈ t, joinPath p.path ".env" ≠ joinPath x.path ".env" ∧
          joinPath p.path ".env" ≠ joinPath x.path ".env.bak" := by
        intro x hx
        obtain ⟨a, b, _, _⟩ := slots_ne_of_path_ne p.path x.path (hframe x hx)
        exact ⟨a, b⟩
      have hfb : ∀ x ∈ t, joinPath p.path ".env.bak" ≠ joinPath x.path ".env" ∧
          joinPath p.path ".env.bak" ≠ joinPath x.path ".env.bak" := by
        intro x hx
        obtain ⟨_, _, a, b⟩ := slots_ne_of_path_ne p.path x.path (hframe x hx)
        exact ⟨a, b⟩
      rw [revertAll_cons, restoreEnvFile_of_bak fs p orig hbak,
        revertAll_apply_ne t _ _ hfe, revertAll_apply_ne t _ _ hfb,
        fsDelete_ne _ _ _ (joinPath_env_ne_bak _ _), fsWrite_self,
        fsDelete_self]
      exact ⟨rfl, rfl⟩
    · have hqp : p.path ≠ q.path := by
        intro he
        exact hnodup.1 (he ▸ List.mem_map_of_mem (·.path) hpt)
      obtain ⟨s1, s2, s3, s4⟩ := slots_ne_of_path_ne p.path q.path hqp
      have hstep_bak : (restoreEnvFile fs q) (joinPath p.path ".env.bak") =
          some orig := by
        rw [restoreEnvFile_apply_ne fs q _ s3 s4]
        exact hbak
      rw [revertAll_cons]
      exact ih _ hnodup.2 hpt hstep_bak

/-- Effect of the restore loop on one member project with no backup: both
slots are untouched. -/
theorem revertAll_at_member_nobak (l : List Project) (fs : Fs) (p : Project)
    (orig : String) (hnodup : (l.map (·.path)).Nodup) (hp : p ∈ l)
    (henv : fs (joinPath p.path ".env") = some orig)
    (hbak : fs (joinPath p.path ".env.bak") = none) :
    revertAllActiveProjectsFromFile fs l (joinPath p.path ".env") = some orig ∧
    revertAllActiveProjectsFromFile fs l (joinPath p.path ".env.bak") = none := by
  induction l generalizing fs with
  | nil => cases hp
  | cons q t ih =>
    simp only [List.map_cons, List.nodup_cons] at hnodup
    rcases List.mem_cons.mp hp with rfl | hpt
    · have hframe : ∀ x ∈ t, p.path ≠ x.path := by
        intro x hx he
        exact hnodup.1 (he ▸ List.mem_map_of_mem (·.path) hx)
      have hfe : ∀ x ∈ t, joinPath p.path ".env" ≠ joinPath x.path ".env" ∧
          joinPath p.path ".env" ≠ joinPath x.path ".env.bak" := by
        intro x hx
        obtain ⟨a, b, _, _⟩ := slots_ne_of_path_ne p.path x.path (hframe x hx)
        exact ⟨a, b⟩
      have hfb : ∀ x ∈ t, joinPath p.path ".env.bak" ≠ joinPath x.path ".env" ∧
          joinPath p.path ".env.bak" ≠ joinPath x.path ".env.bak" := by
        intro x hx
        obtain ⟨_, _, a, b⟩ := slots_ne_of_path_ne p.path x.path (hframe x hx)
        exact ⟨a, b⟩
      rw [revertAll_cons, restoreEnvFile_of_no_bak fs p hbak,
        revertAll_apply_ne t _ _ hfe, revertAll_apply_ne t _ _ hfb]
      exact ⟨henv, hbak⟩
    · have hqp : p.path ≠ q.path := by
        intro he
        exact hnodup.1 (he ▸ List.mem_map_of_mem (·.path) hpt)
      obtain ⟨s1, s2, s3, s4⟩ := slots_ne_of_path_ne p.path q.path hqp
      have hstep_env : (restoreEnvFile fs q) (joinPath p.path ".env") =
          some orig := by
        rw [restoreEnvFile_apply_ne fs q _ s1 s2]
        exact henv
      have hstep_bak : (restoreEnvFile fs q) (joinPath p.path ".env.bak") =
          none := by
        rw [restoreEnvFile_apply_ne fs q _ s3 s4]
        exact hbak
      rw [revertAll_cons]
      exact ih _ hnodup.2 hpt hstep_env hstep_bak

/-- Claim C4: for a snapshot with pairwise distinct project paths, a
project whose target `.env` exists and has no pre-existing backup file,
toggling `terminal -> file -> terminal` with no intervening mutation
returns the target file to its byte-identical original content and
leaves no backup behind. -/
theorem c4_mode_round_trip (fs : Fs) (projects : List Project) (p : Project)
    (orig : String) (hnodup : (projects.map (·.path)).Nodup)
    (hp : p ∈ projects)
    (henv : fs (joinPath p.path ".env") = some orig)
    (hbak : fs (joinPath p.path ".env.bak") = none) :
    (toggleSyncMode SyncMode.terminal fs projects).1 = SyncMode.file ∧
    (toggleSyncMode (toggleSyncMode SyncMode.terminal fs projects).1
      (toggleSyncMode SyncMode.terminal fs projects).2 projects).1 =
        SyncMode.terminal ∧
    (toggleSyncMode (toggleSyncMode SyncMode.terminal fs projects).1
      (toggleSyncMode SyncMode.terminal fs projects).2 projects).2
      (joinPath p.path ".env") = some orig ∧
    (toggleSyncMode (toggleSyncMode SyncMode.terminal fs projects).1
      (toggleSyncMode SyncMode.terminal fs projects).2 projects).2
      (joinPath p.path ".env.bak") = none := by
  have hs := syncAll_at_member projects fs p orig hnodup hp henv hbak
  cases hae : projectActiveEnv p with
  | none =>
    obtain ⟨he, hb⟩ := hs.1 hae
    have hr := revertAll_at_member_nobak projects _ p orig hnodup hp he hb
    exact ⟨rfl, rfl, hr.1, hr.2⟩
  | some env =>
    obtain ⟨he, hb⟩ := hs.2 env hae
    have hr := revertAll_at_member_bak projects _ p orig hnodup hp hb
    exact ⟨rfl, rfl, hr.1, hr.2⟩

/-- Concrete instantiation of claim C4: the original `X=1` content comes
back after the double toggle. -/
theorem c4_mode_round_trip_witness :
    (toggleSyncMode
      (toggleSyncMode SyncMode.terminal
        (fun q => if q = "/a/.env" then some "X=1" else none)
        [⟨"1", "p", "/a", [⟨"e1", "dev", [⟨"X", "2", true⟩]⟩], some "e1"⟩]).1
      (toggleSyncMode SyncMode.terminal
        (fun q => if q = "/a/.env" then some "X=1" else none)
        [⟨"1", "p", "/a", [⟨"e1", "dev", [⟨"X", "2", true⟩]⟩], some "e1"⟩]).2
      [⟨"1", "p", "/a", [⟨"e1", "dev", [⟨"X", "2", true⟩]⟩], some "e1"⟩]).2
      (joinPath "/a" ".env") = some "X=1" :=
  (c4_mode_round_trip (fun q => if q = "/a/.env" then some "X=1" else none)
    [⟨"1", "p", "/a", [⟨"e1", "dev", [⟨"X", "2", true⟩]⟩], some "e1"⟩]
    ⟨"1", "p", "/a", [⟨"e1", "dev", [⟨"X", "2", true⟩]⟩], some "e1"⟩
    "X=1" (by decide) (by decide) (by decide) (by decide)).2.2.1

/-- Concrete instantiation of amended claim C5's append behaviour. -/
theorem c5_empty_file_append_witness :
    mergeEnvLinesChars [[]]
      (([⟨"A", "1", true⟩] : List EnvVariable).filter (fun v => v.enabled)) =
      [] :: (([⟨"A", "1", true⟩] : List EnvVariable).filter
        (fun v => v.enabled)).map (fun v => genLineChars v.key.data v.value.data) :=
  (c5_empty_file_append [⟨"A", "1", true⟩]).2
